import Mathlib

/-!
Verification of the HIME phonetic input engine core
(`pime/hime/hime_data.py` and `pime/hime/hime_engine.py`).

Byte strings are modelled as `List Nat` (each element one byte),
decoded text as `List Nat` of Unicode code points.  Fallible Python
code (raised exceptions) is modelled with `Option`.
-/

namespace Hime

/-! ## Phonetic key codec (`hime_data.py`, `pho2key` / `key_typ_pho`)

`TYP_PHO_LEN = [5, 2, 4, 3]` gives the packed bit width of each of the
four slots (initial, medial, final, tone).  `pho2key` unrolls the
Python loop `for i in range(1, 4): key = typ_pho[i] | (key << TYP_PHO_LEN[i])`.
-/

def pho2key (typ_pho : List Nat) : Nat :=
  if typ_pho.getD 0 0 = 24 then  -- BACK_QUOTE_NO
    (24 <<< 9) ||| typ_pho.getD 1 0
  else
    let key := typ_pho.getD 0 0
    let key := typ_pho.getD 1 0 ||| (key <<< 2)
    let key := typ_pho.getD 2 0 ||| (key <<< 4)
    typ_pho.getD 3 0 ||| (key <<< 3)

def key_typ_pho (phokey : Nat) : List Nat :=
  let t3 := phokey &&& 7
  let k1 := phokey >>> 3
  let t2 := k1 &&& 0xF
  let k2 := k1 >>> 4
  let t1 := k2 &&& 0x3
  let k3 := k2 >>> 2
  [k3, t1, t2, t3]

/-! ## Binary decoding primitives (`hime_data.py`)

Files are read sequentially; we model `f.read(n)` followed by
`struct.unpack` as consuming functions on the remaining byte list.
`struct.unpack` raises (modelled by `none`) unless the buffer holds
exactly the demanded number of bytes; `f.read(n)` itself silently
returns fewer bytes at end of file.
-/

/-- Value of a little-endian byte list. -/
def leNat : List Nat → Nat
  | [] => 0
  | b :: r => b + 256 * leNat r

/-- `struct.unpack` of one `n`-byte little-endian unsigned field read by
`f.read(n)`: fails unless `n` bytes remain, and consumes them. -/
def unpack? (n : Nat) (l : List Nat) : Option (Nat × List Nat) :=
  if (l.take n).length = n then some (leNat (l.take n), l.drop n) else none

/-- `struct.unpack('<HH', f.read(4))`: two unsigned 16-bit fields. -/
def unpackHH? (l : List Nat) : Option (Nat × Nat × List Nat) :=
  if (l.take 4).length = 4 then
    some (leNat (l.take 2), leNat ((l.drop 2).take 2), l.drop 4)
  else none

/-- `struct.unpack('<b', f.read(1))`: one signed byte. -/
def unpackSB? (l : List Nat) : Option (Int × List Nat) :=
  match l with
  | [] => none
  | b :: r => some (if b < 128 then (b : Int) else (b : Int) - 256, r)

/-- `bytes.rstrip(b'\x00')`: drop trailing zero bytes. -/
def rstripZeros (l : List Nat) : List Nat :=
  (l.reverse.dropWhile (· == 0)).reverse

/-- Strict UTF-8 decoding of a byte list into code points (`none` on any
invalid, overlong, surrogate or out-of-range sequence), as Python's
`bytes.decode('utf-8')`. -/
def utf8Decode? : List Nat → Option (List Nat)
  | [] => some []
  | b :: rest =>
    if b < 0x80 then
      (utf8Decode? rest).map (b :: ·)
    else if b < 0xC2 then none
    else if b < 0xE0 then
      match rest with
      | c :: rest2 =>
        if c / 64 = 2 then
          (utf8Decode? rest2).map (((b % 32) * 64 + c % 64) :: ·)
        else none
      | [] => none
    else if b < 0xF0 then
      match rest with
      | c :: d :: rest2 =>
        if (c / 64 = 2 ∧ d / 64 = 2) ∧ ¬(b = 0xE0 ∧ c < 0xA0) ∧ ¬(b = 0xED ∧ 0xA0 ≤ c) then
          (utf8Decode? rest2).map (((b % 16) * 4096 + (c % 64) * 64 + d % 64) :: ·)
        else none
      | _ => none
    else if b < 0xF5 then
      match rest with
      | c :: d :: e :: rest2 =>
        if (c / 64 = 2 ∧ d / 64 = 2 ∧ e / 64 = 2) ∧ ¬(b = 0xF0 ∧ c < 0x90) ∧ ¬(b = 0xF4 ∧ 0x90 ≤ c) then
          (utf8Decode? rest2).map
            (((b % 8) * 262144 + (c % 64) * 4096 + (d % 64) * 64 + e % 64) :: ·)
        else none
      | _ => none
    else none

/-- `str.encode('latin-1')`: identity on code points below 256, raises
(`none`) otherwise. -/
def latin1Encode? (cps : List Nat) : Option (List Nat) :=
  if cps.all (· < 256) then some cps else none

/-! ## Phonetic table (`PhoneticTable`) -/

structure PhoIdx where
  key : Nat
  start : Nat
  deriving DecidableEq

structure PhoItem where
  /-- Decoded glyph, a list of Unicode code points. -/
  ch : List Nat
  count : Nat
  deriving DecidableEq

structure PhoneticTable where
  /-- Index array, including the appended `0xFFFF` sentinel. -/
  idx_pho : List PhoIdx
  ch_pho : List PhoItem
  phrase_area : List Nat
  idxnum_pho : Nat
  ch_phoN : Nat
  deriving DecidableEq

/-- The index-entry loop of `PhoneticTable._load`: reads `k` 4-byte
`(u16 key, u16 start)` entries. -/
def readIdxs : Nat → List Nat → Option (List PhoIdx × List Nat)
  | 0, l => some ([], l)
  | k + 1, l => do
    let (key, start, l1) ← unpackHH? l
    let (rest, l2) ← readIdxs k l1
    some (⟨key, start⟩ :: rest, l2)

/-- The character-entry loop of `PhoneticTable._load`: reads `k` entries of
4 raw glyph bytes (`f.read(CH_SZ)`, unchecked) plus a `u32` count, strips
trailing zero bytes from the glyph and decodes it as UTF-8 with a latin-1
fallback. -/
def readChs : Nat → List Nat → Option (List PhoItem × List Nat)
  | 0, l => some ([], l)
  | k + 1, l => do
    let chBytes := l.take 4
    let l1 := l.drop 4
    let (count, l2) ← unpack? 4 l1
    let stripped := rstripZeros chBytes
    let ch := (utf8Decode? stripped).getD stripped
    let (rest, l3) ← readChs k l2
    some (⟨ch, count⟩ :: rest, l3)

/-- `PhoneticTable._load` on the file's bytes.  The 16-bit index count is
read twice (historical quirk) and the second value used; then the `u32`
character count and `u32` phrase-area size, the index entries (plus the
`0xFFFF` sentinel), the character entries, and the phrase-area bytes. -/
def phoLoad (bs : List Nat) : Option PhoneticTable := do
  let (_n1, l1) ← unpack? 2 bs
  let (idxnum, l2) ← unpack? 2 l1
  let (chN, l3) ← unpack? 4 l2
  let (phraseSz, l4) ← unpack? 4 l3
  let (idxs, l5) ← readIdxs idxnum l4
  let (chs, l6) ← readChs chN l5
  let phrase := if 0 < phraseSz then l6.take phraseSz else []
  some ⟨idxs ++ [⟨0xFFFF, chN⟩], chs, phrase, idxnum, chN⟩

/-- `bytes.find(b'\x00', off)` on the phrase area. -/
def findZeroFrom (blob : List Nat) (off : Nat) : Option Nat :=
  ((blob.drop off).findIdx? (· == 0)).map (· + off)

/-- `PhoneticTable.get_char`: returns `some text` (code points), or `none`
when the Python code would raise (`str.encode('latin-1')` on a code point
above 255).  Out-of-range indices and failed phrase decodes yield
`some []` (the empty string), as in the source. -/
def PhoneticTable.get_char (t : PhoneticTable) (idx : Nat) : Option (List Nat) :=
  if t.ch_pho.length ≤ idx then some []
  else
    let item := t.ch_pho.getD idx ⟨[], 0⟩
    match item.ch with
    | [] => some item.ch
    | c0 :: _ =>
      if c0 = 0x1B then  -- PHO_PHRASE_ESCAPE
        match latin1Encode? item.ch with
        | none => none
        | some chBytes =>
          if 4 ≤ chBytes.length then
            let offset := chBytes.getD 1 0 + (chBytes.getD 2 0) * 256 + (chBytes.getD 3 0) * 65536
            let e := (findZeroFrom t.phrase_area offset).getD t.phrase_area.length
            match utf8Decode? ((t.phrase_area.take e).drop offset) with
            | some cps => some cps
            | none => some []
          else some item.ch
      else some item.ch

/-- The scan of `PhoneticTable.lookup` over `idx_pho[:-1]` with lookahead
to the next entry's `start`: first exact key match wins, stopping early
once an index key exceeds the target. -/
def lookupScan : List PhoIdx → Nat → Option (Nat × Nat)
  | a :: b :: rest, phokey =>
    if a.key = phokey then some (a.start, b.start)
    else if phokey < a.key then none
    else lookupScan (b :: rest) phokey
  | _, _ => none

/-- The inner gather loop of `PhoneticTable.lookup`: `n` slots starting at
`start`, keeping `(text, count)` pairs whose text is non-empty. -/
def gather (t : PhoneticTable) : Nat → Nat → Option (List (List Nat × Nat))
  | _, 0 => some []
  | j, n + 1 => do
    let ch ← t.get_char j
    let rest ← gather t (j + 1) n
    some (if ch ≠ [] then (ch, (t.ch_pho.getD j ⟨[], 0⟩).count) :: rest else rest)

/-- Stable insertion into a list sorted by usage count descending: the new
element goes before the first existing element whose count is not larger,
so earlier elements win ties. -/
def insertDesc (x : List Nat × Nat) : List (List Nat × Nat) → List (List Nat × Nat)
  | [] => [x]
  | y :: ys => if x.2 < y.2 then y :: insertDesc x ys else x :: y :: ys

/-- Stable sort by usage count descending, modelling Python's stable
`list.sort(key=lambda x: -x[1])`. -/
def sortDesc : List (List Nat × Nat) → List (List Nat × Nat)
  | [] => []
  | x :: xs => insertDesc x (sortDesc xs)

/-- `PhoneticTable.lookup`: gather the matching range, sort stably by
count descending, and return the texts. -/
def PhoneticTable.lookup (t : PhoneticTable) (phokey : Nat) :
    Option (List (List Nat)) :=
  match lookupScan t.idx_pho phokey with
  | none => some []
  | some (s, e) => (gather t s (e - s)).map (fun rs => (sortDesc rs).map (·.1))

/-! ## Keyboard mapping (`KeyboardMapping`) -/

structure KeyMapping where
  num : Int
  typ : Int
  deriving DecidableEq

structure KeyboardMapping where
  selkeyN : Nat
  /-- 128 rows of 3 optional slots; a slot is stored only when `num ≠ 0`. -/
  phokbm : List (List (Option KeyMapping))
  deriving DecidableEq

/-- The inner slot loop of `KeyboardMapping._load`: `k` pairs of signed
bytes `(num, typ)`, kept only when `num ≠ 0`. -/
def readSlots : Nat → List Nat → Option (List (Option KeyMapping) × List Nat)
  | 0, l => some ([], l)
  | k + 1, l => do
    let (num, l1) ← unpackSB? l
    let (typ, l2) ← unpackSB? l1
    let (rest, l3) ← readSlots k l2
    some ((if num ≠ 0 then some ⟨num, typ⟩ else none) :: rest, l3)

/-- The outer key loop of `KeyboardMapping._load`: `k` rows of 3 slots. -/
def readRows : Nat → List Nat → Option (List (List (Option KeyMapping)) × List Nat)
  | 0, l => some ([], l)
  | k + 1, l => do
    let (row, l1) ← readSlots 3 l
    let (rest, l2) ← readRows k l1
    some (row :: rest, l2)

/-- `KeyboardMapping._load`: one `selkeyN` byte then `128 × 3` signed byte
pairs. -/
def kbmLoad (bs : List Nat) : Option KeyboardMapping := do
  let (selkeyN, l1) ← unpack? 1 bs
  let (rows, _l2) ← readRows 128 l1
  some ⟨selkeyN, rows⟩

/-- The core byte demand of a phonetic table file: 12-byte header,
4 bytes per index entry and 8 bytes per character entry; the counts are
the second `u16` and the `u32` that follow in the header. -/
def phoCoreDemand (bs : List Nat) : Nat :=
  12 + 4 * leNat ((bs.drop 2).take 2) + 8 * leNat ((bs.drop 4).take 4)

/-- The full byte demand of a phonetic table file, phrase area included. -/
def phoFullDemand (bs : List Nat) : Nat :=
  phoCoreDemand bs + leNat ((bs.drop 8).take 4)

/-! ## Phonetic engine (`hime_engine.py`, `PhoneticEngine`)

Keys are Unicode code points (`Nat`); committed text is a list of code
points, `[]` standing for the empty string.  The loaded table is carried
in the state and never mutated; `candidates_per_page` is initialised to
10 and never reassigned, so it is modelled as a constant.
-/

structure EngState where
  pho_table : Option PhoneticTable
  /-- `[initial, medial, final, tone]`, 0 = empty slot. -/
  typ_pho : List Nat
  /-- Raw key codes that produced each slot. -/
  inph : List Nat
  candidates : List (List Nat)
  candidate_page : Nat
  deriving DecidableEq

def candidates_per_page : Nat := 10

/-- `self.sel_keys = '1234567890'` as code points. -/
def sel_keys : List Nat := [49, 50, 51, 52, 53, 54, 55, 56, 57, 48]

/-- `STANDARD_ZHUYIN_MAP`: ASCII key code to `(num, typ)` pairs. -/
def zhuyinMap : Nat → List (Nat × Nat)
  | 49 => [(1, 0)]   -- '1' ㄅ
  | 113 => [(2, 0)]  -- 'q' ㄆ
  | 97 => [(3, 0)]   -- 'a' ㄇ
  | 122 => [(4, 0)]  -- 'z' ㄈ
  | 50 => [(5, 0)]   -- '2' ㄉ
  | 119 => [(6, 0)]  -- 'w' ㄊ
  | 115 => [(7, 0)]  -- 's' ㄋ
  | 120 => [(8, 0)]  -- 'x' ㄌ
  | 101 => [(9, 0)]  -- 'e' ㄍ
  | 100 => [(10, 0)] -- 'd' ㄎ
  | 99 => [(11, 0)]  -- 'c' ㄏ
  | 114 => [(12, 0)] -- 'r' ㄐ
  | 102 => [(13, 0)] -- 'f' ㄑ
  | 118 => [(14, 0)] -- 'v' ㄒ
  | 53 => [(15, 0)]  -- '5' ㄓ
  | 116 => [(16, 0)] -- 't' ㄔ
  | 103 => [(17, 0)] -- 'g' ㄕ
  | 98 => [(18, 0)]  -- 'b' ㄖ
  | 121 => [(19, 0)] -- 'y' ㄗ
  | 104 => [(20, 0)] -- 'h' ㄘ
  | 110 => [(21, 0)] -- 'n' ㄙ
  | 117 => [(1, 1)]  -- 'u' ㄧ
  | 106 => [(2, 1)]  -- 'j' ㄨ
  | 109 => [(3, 1)]  -- 'm' ㄩ
  | 56 => [(1, 2)]   -- '8' ㄚ
  | 105 => [(2, 2)]  -- 'i' ㄛ
  | 107 => [(3, 2)]  -- 'k' ㄜ
  | 44 => [(4, 2)]   -- ',' ㄝ
  | 57 => [(5, 2)]   -- '9' ㄞ
  | 111 => [(6, 2)]  -- 'o' ㄟ
  | 108 => [(7, 2)]  -- 'l' ㄠ
  | 46 => [(8, 2)]   -- '.' ㄡ
  | 48 => [(9, 2)]   -- '0' ㄢ
  | 112 => [(10, 2)] -- 'p' ㄣ
  | 59 => [(11, 2)]  -- ';' ㄤ
  | 47 => [(12, 2)]  -- '/' ㄥ
  | 45 => [(13, 2)]  -- '-' ㄦ
  | 51 => [(2, 3)]   -- '3' second tone
  | 52 => [(3, 3)]   -- '4' third tone
  | 54 => [(4, 3)]   -- '6' fourth tone
  | 55 => [(5, 3)]   -- '7' neutral tone
  | 32 => [(1, 3)]   -- space, first tone
  | _ => []

/-- `str.lower()` restricted to the ASCII letters that can occur here. -/
def asciiLower (c : Nat) : Nat := if 65 ≤ c ∧ c ≤ 90 then c + 32 else c

/-- `PhoneticEngine.reset`. -/
def reset (s : EngState) : EngState :=
  { s with typ_pho := [0, 0, 0, 0], inph := [0, 0, 0, 0],
           candidates := [], candidate_page := 0 }

/-- A freshly constructed engine with the given table. -/
def initState (t : Option PhoneticTable) : EngState :=
  ⟨t, [0, 0, 0, 0], [0, 0, 0, 0], [], 0⟩

/-- `PhoneticEngine.is_empty`. -/
def is_empty (s : EngState) : Bool := s.typ_pho.all (· == 0)

/-- `PhoneticEngine._insert_phonetic`: finds the highest filled slot and
takes the "insert" branch when `typ` lies beyond it, the "overwrite"
branch otherwise; both branches perform the same direct assignment. -/
def insertPhonetic (s : EngState) (num typ key : Nat) : EngState :=
  let maxInIdx : Int :=
    if s.typ_pho.getD 3 0 ≠ 0 then 3
    else if s.typ_pho.getD 2 0 ≠ 0 then 2
    else if s.typ_pho.getD 1 0 ≠ 0 then 1
    else if s.typ_pho.getD 0 0 ≠ 0 then 0
    else -1
  if maxInIdx < (typ : Int) then
    -- insert mode (fill empty slots in order)
    { s with typ_pho := s.typ_pho.set typ num, inph := s.inph.set typ key }
  else
    -- overwrite mode
    { s with typ_pho := s.typ_pho.set typ num, inph := s.inph.set typ key }

/-- Direct unconditional slot assignment, as the specification describes
the observable behaviour of both `_insert_phonetic` branches. -/
def insertPhoneticSpec (s : EngState) (num typ key : Nat) : EngState :=
  { s with typ_pho := s.typ_pho.set typ num, inph := s.inph.set typ key }

/-- `PhoneticEngine._delete_last`: clear the highest non-zero slot
(scanning from tone toward initial), then discard the candidate set and
reset the page. -/
def deleteLast (s : EngState) : EngState :=
  let s1 :=
    if s.typ_pho.getD 3 0 ≠ 0 then
      { s with typ_pho := s.typ_pho.set 3 0, inph := s.inph.set 3 0 }
    else if s.typ_pho.getD 2 0 ≠ 0 then
      { s with typ_pho := s.typ_pho.set 2 0, inph := s.inph.set 2 0 }
    else if s.typ_pho.getD 1 0 ≠ 0 then
      { s with typ_pho := s.typ_pho.set 1 0, inph := s.inph.set 1 0 }
    else if s.typ_pho.getD 0 0 ≠ 0 then
      { s with typ_pho := s.typ_pho.set 0 0, inph := s.inph.set 0 0 }
    else s
  { s1 with candidates := [], candidate_page := 0 }

/-- `PhoneticEngine._lookup_candidates`: clear the candidate set and page,
then (unless the buffer is empty or no table is loaded) query the table
for the packed key.  `none` models a raised exception inside the table
lookup. -/
def lookupCandidates (s : EngState) : Option EngState :=
  let s1 := { s with candidates := [], candidate_page := 0 }
  if is_empty s1 then some s1
  else
    match s1.pho_table with
    | none => some s1
    | some t =>
      (t.lookup (pho2key s1.typ_pho)).map (fun cs => { s1 with candidates := cs })

/-- `PhoneticEngine.process_key`.  The result is
`(new state, handled, commit string, show candidates)`; `none` models a
raised exception.  The branch order follows the source: candidate
selection (falling through when the selected index is past the end),
Zhuyin symbol insertion with the tone/space lookup trigger, escape,
backspace, and finally "not handled". -/
def process_key (s : EngState) (keyChar : Nat) :
    Option (EngState × Bool × List Nat × Bool) :=
  let key := asciiLower keyChar
  if s.candidates ≠ [] ∧ key ∈ sel_keys ∧
      s.candidate_page * candidates_per_page + sel_keys.findIdx (· == key) <
        s.candidates.length then
    some (reset s, true,
      s.candidates.getD
        (s.candidate_page * candidates_per_page + sel_keys.findIdx (· == key)) [],
      false)
  else if zhuyinMap key ≠ [] then
    let s1 := (zhuyinMap key).foldl (fun st p => insertPhonetic st p.1 p.2 key) s
    if s1.typ_pho.getD 3 0 ≠ 0 ∨ key = 32 then
      match lookupCandidates s1 with
      | none => none
      | some s2 =>
        if s2.candidates.length = 1 then
          some (reset s2, true, s2.candidates.getD 0 [], false)
        else if 0 < s2.candidates.length then
          some (s2, true, [], true)
        else
          some (s2, true, [], false)
    else
      some (s1, true, [], false)
  else if keyChar = 27 then  -- Escape
    some (reset s, true, [], false)
  else if keyChar = 8 then   -- Backspace
    if is_empty s then some (s, false, [], false)
    else some (deleteLast s, true, [], false)
  else
    some (s, false, [], false)

/-- `PhoneticEngine.get_candidates`: the current page slice. -/
def get_candidates (s : EngState) : List (List Nat) :=
  if s.candidates = [] then []
  else
    (s.candidates.drop (s.candidate_page * candidates_per_page)).take
      candidates_per_page

/-- `PhoneticEngine.page_up`. -/
def page_up (s : EngState) : EngState × Bool :=
  if 0 < s.candidate_page then ({ s with candidate_page := s.candidate_page - 1 }, true)
  else (s, false)

/-- `PhoneticEngine.page_down`.  `max_page` is Python floor division
`(len(candidates) - 1) // 10`, which is `-1` on an empty list. -/
def page_down (s : EngState) : EngState × Bool :=
  let maxPage : Int := Int.fdiv ((s.candidates.length : Int) - 1) (candidates_per_page : Int)
  if (s.candidate_page : Int) < maxPage then
    ({ s with candidate_page := s.candidate_page + 1 }, true)
  else (s, false)

/-- `PhoneticEngine.select_candidate`. -/
def select_candidate (s : EngState) (index : Nat) : EngState × Option (List Nat) :=
  let actual := s.candidate_page * candidates_per_page + index
  if actual < s.candidates.length then (reset s, some (s.candidates.getD actual []))
  else (s, none)

/-- States reachable from a freshly constructed engine by any sequence of
`process_key`, `select_candidate`, `page_up`, `page_down` and `reset`. -/
inductive Reach : EngState → Prop
  | init (t : Option PhoneticTable) : Reach (initState t)
  | key {s s' : EngState} {k : Nat} {h : Bool} {c : List Nat} {sc : Bool} :
      Reach s → process_key s k = some (s', h, c, sc) → Reach s'
  | sel {s : EngState} (i : Nat) : Reach s → Reach (select_candidate s i).1
  | pup {s : EngState} : Reach s → Reach (page_up s).1
  | pdown {s : EngState} : Reach s → Reach (page_down s).1
  | rst {s : EngState} : Reach s → Reach (reset s)

/-- The paging invariant of claim C10. -/
def Inv (s : EngState) : Prop :=
  (s.candidates = [] → s.candidate_page = 0) ∧
  (s.candidates ≠ [] → s.candidate_page * candidates_per_page < s.candidates.length)

/-! ## Concrete witnesses -/

/-- An engine state with 25 candidates on page 0. -/
def pageDemoState : EngState :=
  ⟨none, [0, 0, 0, 0], [0, 0, 0, 0], List.replicate 25 [65], 0⟩

/-- An engine state with only the initial slot filled. -/
def backspaceDemoState : EngState := ⟨none, [1, 0, 0, 0], [49, 0, 0, 0], [], 0⟩

/-- A phonetic table file with one index entry and one character entry
whose glyph is the phrase escape `[0x1B, 3, 0, 0]` (offset 3), with
phrase area `b"AB\x00CDE\x00"`. -/
def phraseBugFile : List Nat :=
  [1, 0, 1, 0, 1, 0, 0, 0, 7, 0, 0, 0,
   100, 0, 0, 0,
   27, 3, 0, 0, 5, 0, 0, 0,
   65, 66, 0, 67, 68, 69, 0]

/-- The table `phoLoad` produces from `phraseBugFile`: load-time zero
stripping has reduced the escape entry's glyph to the two code points
`[27, 3]`. -/
def phraseBugTable : PhoneticTable :=
  ⟨[⟨100, 0⟩, ⟨0xFFFF, 1⟩], [⟨[27, 3], 5⟩], [65, 66, 0, 67, 68, 69, 0], 1, 1⟩

/-- A header-only phonetic table file that announces a 5-byte phrase area
which the file does not contain. -/
def truncatedPhraseFile : List Nat := [1, 0, 0, 0, 0, 0, 0, 0, 5, 0, 0, 0]

/-- A well-formed 12-byte phonetic table file with zero entries. -/
def emptyPhoFile : List Nat := List.replicate 12 0

/-- The table loaded from `emptyPhoFile`. -/
def emptyPhoTable : PhoneticTable := ⟨[⟨0xFFFF, 0⟩], [], [], 0, 0⟩

/-- A two-entry phonetic table: key 2 maps to the glyphs `[100]` (count 7)
and `[101]` (count 3). -/
def demoTable : PhoneticTable :=
  ⟨[⟨2, 0⟩, ⟨0xFFFF, 2⟩], [⟨[100], 7⟩, ⟨[101], 3⟩], [], 1, 2⟩

/-- The texts of `demoTable`'s character entries by slot index. -/
def demoChs : Nat → List Nat := fun j => if j = 0 then [100] else [101]

/-- The `(text, count)` pairs of `demoTable`'s key-2 range. -/
def demoEntries : List (List Nat × Nat) := [([100], 7), ([101], 3)]

end Hime

/-! ## Claim theorems -/

theorem lor_shiftLeft_eq_add (y x k : Nat) (h : y < 2 ^ k) :
    y ||| (x <<< k) = 2 ^ k * x + y := by
  apply Nat.eq_of_testBit_eq
  intro j
  rw [Nat.testBit_lor, Nat.testBit_shiftLeft, Nat.testBit_mul_pow_two_add x h j]
  by_cases hj : j < k
  · have : ¬ j ≥ k := by omega
    simp [hj, this]
  · have hk : k ≤ j := by omega
    have hy : y.testBit j = false :=
      Nat.testBit_lt_two_pow (lt_of_lt_of_le h (Nat.pow_le_pow_right (by omega) hk))
    simp [hj, hk, hy]

theorem and_mask_eq_mod (x k : Nat) : x &&& (2 ^ k - 1) = x % 2 ^ k :=
  Nat.and_pow_two_sub_one_eq_mod x k

/-- C1: for every 4-slot composition `[a, b, c, d]` with `a < 24`
(excluding the back-quote component 24), `b < 4`, `c < 16`, `d < 8`,
decoding the encoded key returns the original slots:
`key_typ_pho (pho2key s) = s`. -/
theorem pho_roundtrip :
    ∀ a < 24, ∀ b < 4, ∀ c < 16, ∀ d < 8,
      Hime.key_typ_pho (Hime.pho2key [a, b, c, d]) = [a, b, c, d] := by
  intro a ha b hb c hc d hd
  have e1 : Hime.pho2key [a, b, c, d] = 2 ^ 3 * (2 ^ 4 * (2 ^ 2 * a + b) + c) + d := by
    unfold Hime.pho2key
    simp only [List.getD_cons_zero, List.getD_cons_succ]
    rw [if_neg (by omega)]
    rw [lor_shiftLeft_eq_add b a 2 hb, lor_shiftLeft_eq_add c _ 4 hc,
      lor_shiftLeft_eq_add d _ 3 (by omega)]
  rw [e1]
  unfold Hime.key_typ_pho
  have m2 := fun x => and_mask_eq_mod x 2
  have m3 := fun x => and_mask_eq_mod x 3
  have m4 := fun x => and_mask_eq_mod x 4
  norm_num at m2 m3 m4
  simp only [m2, m3, m4, Nat.shiftRight_eq_div_pow]
  norm_num
  refine ⟨?_, ?_, ?_, ?_⟩ <;> omega

/-- Witness for C1 at the concrete composition `[5, 1, 2, 3]`. -/
theorem pho_roundtrip_witness :
    5 < 24 ∧ 1 < 4 ∧ 2 < 16 ∧ 3 < 8 ∧
      Hime.key_typ_pho (Hime.pho2key [5, 1, 2, 3]) = [5, 1, 2, 3] :=
  ⟨by decide, by decide, by decide, by decide,
    pho_roundtrip 5 (by decide) 1 (by decide) 2 (by decide) 3 (by decide)⟩

/-- C9: for every buffer state and component `(num, typ, key)`, the two
branches of `_insert_phonetic` (insert when `typ` is beyond the highest
filled slot, overwrite otherwise) are observationally equal: both equal
the unconditional assignments `typ_pho[typ] = num`, `inph[typ] = key`,
with no shifting of other slots. -/
theorem insert_overwrite_equiv :
    ∀ (s : Hime.EngState) (num typ key : Nat),
      Hime.insertPhonetic s num typ key = Hime.insertPhoneticSpec s num typ key := by
  intro s num typ key
  simp only [Hime.insertPhonetic, Hime.insertPhoneticSpec, ite_self]

/-- C7: with the fixed page size 10, `page_up` at page 0 and `page_down`
at the last page return `false` and leave the state unchanged; with 25
candidates starting at page 0, `page_down` succeeds twice (pages 1 and 2)
and a third call returns `false`, staying at page 2. -/
theorem paging_bounds :
    (∀ s : Hime.EngState, s.candidate_page = 0 → Hime.page_up s = (s, false)) ∧
    (∀ s : Hime.EngState, s.candidates ≠ [] →
      (s.candidate_page : Int) =
        Int.fdiv ((s.candidates.length : Int) - 1) (Hime.candidates_per_page : Int) →
      Hime.page_down s = (s, false)) ∧
    (Hime.page_down Hime.pageDemoState =
        ({ Hime.pageDemoState with candidate_page := 1 }, true) ∧
      Hime.page_down { Hime.pageDemoState with candidate_page := 1 } =
        ({ Hime.pageDemoState with candidate_page := 2 }, true) ∧
      Hime.page_down { Hime.pageDemoState with candidate_page := 2 } =
        ({ Hime.pageDemoState with candidate_page := 2 }, false)) := by
  refine ⟨?_, ?_, by decide, by decide, by decide⟩
  · intro s h
    simp [Hime.page_up, h]
  · intro s _ h
    simp only [Hime.page_down, ← h]
    simp

/-- Witness for C7: `page_up` refuses at page 0 of the demo state, and
`page_down` refuses at its last page (page 2 of 25 candidates). -/
theorem paging_bounds_witness :
    Hime.page_up Hime.pageDemoState = (Hime.pageDemoState, false) ∧
    Hime.page_down { Hime.pageDemoState with candidate_page := 2 } =
      ({ Hime.pageDemoState with candidate_page := 2 }, false) :=
  ⟨paging_bounds.1 _ rfl, paging_bounds.2.1 _ (by decide) (by decide)⟩

/-- C2 (code bug): on the concrete table whose escape entry stores offset
3 into the phrase blob `b"AB\x00CDE\x00"`, the claim says `get_char`
returns `"CDE"` (`[67, 68, 69]`); the loaded code instead returns the raw
two-code-point string `[27, 3]`, because `_load` stripped the trailing
zero bytes of the offset so the escape branch's 4-byte guard fails. -/
theorem get_char_phrase_escape_bug :
    Hime.phoLoad Hime.phraseBugFile = some Hime.phraseBugTable ∧
    Hime.phraseBugTable.get_char 0 = some [27, 3] ∧
    Hime.phraseBugTable.get_char 0 ≠ some [67, 68, 69] := by
  refine ⟨by decide, by decide, by decide⟩

theorem unpack?_eq (n : Nat) (l : List Nat) :
    Hime.unpack? n l =
      if n ≤ l.length then some (Hime.leNat (l.take n), l.drop n) else none := by
  simp only [Hime.unpack?, List.length_take]
  rcases le_or_lt n l.length with h | h
  · rw [if_pos (by omega), if_pos h]
  · rw [if_neg (by omega), if_neg (by omega)]

theorem unpackHH?_eq (l : List Nat) :
    Hime.unpackHH? l =
      if 4 ≤ l.length then
        some (Hime.leNat (l.take 2), Hime.leNat ((l.drop 2).take 2), l.drop 4)
      else none := by
  simp only [Hime.unpackHH?, List.length_take]
  rcases le_or_lt 4 l.length with h | h
  · rw [if_pos (by omega), if_pos h]
  · rw [if_neg (by omega), if_neg (by omega)]

theorem isSome_bind {α β : Type} (x : Option α) (f : α → Option β) :
    (x >>= f).isSome ↔ ∃ a, x = some a ∧ (f a).isSome := by
  cases x <;> simp

theorem isSome_step {α β : Type} {c : Prop} [Decidable c] (v : α) (f : α → Option β) :
    ((if c then some v else none) >>= f).isSome ↔ c ∧ (f v).isSome := by
  split <;> simp [*]

theorem readIdxs_some (k : Nat) :
    ∀ (l : List Nat) (xs : List Hime.PhoIdx) (l' : List Nat),
      Hime.readIdxs k l = some (xs, l') →
      xs.length = k ∧ l' = l.drop (4 * k) ∧ 4 * k ≤ l.length := by
  induction k with
  | zero => intro l xs l' h; simp [Hime.readIdxs] at h; simp [h.1, h.2]
  | succ k ih =>
    intro l xs l' h
    simp only [Hime.readIdxs] at h
    rw [unpackHH?_eq] at h
    split at h
    · simp only [Option.bind_eq_bind, Option.some_bind] at h
      cases hh : Hime.readIdxs k (l.drop 4) with
      | none => rw [hh] at h; simp at h
      | some p =>
        rw [hh] at h
        obtain ⟨rest, l2⟩ := p
        simp only [Option.some_bind, Option.some.injEq, Prod.mk.injEq] at h
        obtain ⟨hxs, hl'⟩ := h
        obtain ⟨hlen, hrest, hge⟩ := ih (l.drop 4) rest l2 hh
        refine ⟨by simp [← hxs, hlen], ?_, ?_⟩
        · rw [← hl', hrest, List.drop_drop]
          congr 1
          omega
        · simp [List.length_drop] at hge
          omega
    · simp at h

theorem isSome_bind_of_forall {α β : Type} (x : Option α) (f : α → Option β)
    (h : ∀ a, (f a).isSome) : (x.bind f).isSome ↔ x.isSome := by
  cases x <;> simp [h]

theorem readIdxs_isSome (k : Nat) :
    ∀ l : List Nat, (Hime.readIdxs k l).isSome ↔ 4 * k ≤ l.length := by
  induction k with
  | zero => intro l; simp [Hime.readIdxs]
  | succ k ih =>
    intro l
    simp only [Hime.readIdxs]
    rw [unpackHH?_eq]
    by_cases h4 : 4 ≤ l.length
    · rw [if_pos h4]
      simp only [Option.bind_eq_bind, Option.some_bind]
      rw [isSome_bind_of_forall _ _ (fun p => by simp)]
      rw [ih]
      simp only [List.length_drop]
      omega
    · rw [if_neg h4]
      simp only [Option.bind_eq_bind, Option.none_bind, Option.isSome_none]
      constructor
      · intro h; simp at h
      · intro h; omega

theorem unpack?_some {n : Nat} {l : List Nat} {v : Nat} {l' : List Nat}
    (h : Hime.unpack? n l = some (v, l')) :
    v = Hime.leNat (l.take n) ∧ l' = l.drop n ∧ n ≤ l.length := by
  rw [unpack?_eq] at h
  split at h
  · simp only [Option.some.injEq, Prod.mk.injEq] at h
    exact ⟨h.1.symm, h.2.symm, by assumption⟩
  · simp at h

theorem readChs_some (k : Nat) :
    ∀ (l : List Nat) (xs : List Hime.PhoItem) (l' : List Nat),
      Hime.readChs k l = some (xs, l') →
      xs.length = k ∧ l' = l.drop (8 * k) ∧ 8 * k ≤ l.length := by
  induction k with
  | zero => intro l xs l' h; simp [Hime.readChs] at h; simp [h.1, h.2]
  | succ k ih =>
    intro l xs l' h
    simp only [Hime.readChs] at h
    rw [unpack?_eq] at h
    split at h
    · rename_i hcond
      simp only [Option.bind_eq_bind, Option.some_bind] at h
      cases hh : Hime.readChs k ((l.drop 4).drop 4) with
      | none => rw [hh] at h; simp at h
      | some p =>
        rw [hh] at h
        obtain ⟨rest, l3⟩ := p
        simp only [Option.some_bind, Option.some.injEq, Prod.mk.injEq] at h
        obtain ⟨hxs, hl'⟩ := h
        obtain ⟨hlen, hrest, hge⟩ := ih ((l.drop 4).drop 4) rest l3 hh
        have hdd : (l.drop 4).drop 4 = l.drop 8 := by
          rw [List.drop_drop]
        refine ⟨by simp [← hxs, hlen], ?_, ?_⟩
        · rw [← hl', hrest, hdd, List.drop_drop]
          congr 1
          omega
        · rw [hdd] at hge
          simp only [List.length_drop] at hge hcond ⊢
          omega
    · simp at h

theorem readChs_isSome (k : Nat) :
    ∀ l : List Nat, (Hime.readChs k l).isSome ↔ 8 * k ≤ l.length := by
  induction k with
  | zero => intro l; simp [Hime.readChs]
  | succ k ih =>
    intro l
    simp only [Hime.readChs]
    rw [unpack?_eq]
    by_cases h4 : 4 ≤ (l.drop 4).length
    · rw [if_pos h4]
      simp only [Option.bind_eq_bind, Option.some_bind]
      rw [isSome_bind_of_forall _ _ (fun p => by simp)]
      rw [ih]
      simp only [List.drop_drop, List.length_drop] at h4 ⊢
      omega
    · rw [if_neg h4]
      simp only [Option.bind_eq_bind, Option.none_bind, Option.isSome_none]
      simp only [List.length_drop] at h4
      constructor
      · intro h; simp at h
      · intro h; omega

theorem readSlots_some (k : Nat) :
    ∀ (l : List Nat) (xs : List (Option Hime.KeyMapping)) (l' : List Nat),
      Hime.readSlots k l = some (xs, l') →
      l' = l.drop (2 * k) ∧ 2 * k ≤ l.length := by
  induction k with
  | zero => intro l xs l' h; simp [Hime.readSlots] at h; simp [h.2]
  | succ k ih =>
    intro l xs l' h
    match l with
    | [] => simp [Hime.readSlots, Hime.unpackSB?] at h
    | [b] => simp [Hime.readSlots, Hime.unpackSB?] at h
    | b :: c :: r =>
      simp only [Hime.readSlots, Hime.unpackSB?, Option.bind_eq_bind, Option.some_bind] at h
      cases hh : Hime.readSlots k r with
      | none => rw [hh] at h; simp at h
      | some p =>
        rw [hh] at h
        obtain ⟨rest, l3⟩ := p
        simp only [Option.some_bind, Option.some.injEq, Prod.mk.injEq] at h
        obtain ⟨hrest, hge⟩ := ih r rest l3 hh
        refine ⟨?_, ?_⟩
        · rw [← h.2, hrest]
          have h9 : 2 * (k + 1) = 2 * k + 1 + 1 := by omega
          rw [h9, List.drop_succ_cons, List.drop_succ_cons]
        · simp only [List.length_cons]
          omega

theorem readSlots_isSome (k : Nat) :
    ∀ l : List Nat, (Hime.readSlots k l).isSome ↔ 2 * k ≤ l.length := by
  induction k with
  | zero => intro l; simp [Hime.readSlots]
  | succ k ih =>
    intro l
    match l with
    | [] => simp [Hime.readSlots, Hime.unpackSB?]
    | [b] => simp [Hime.readSlots, Hime.unpackSB?]; omega
    | b :: c :: r =>
      simp only [Hime.readSlots, Hime.unpackSB?, Option.bind_eq_bind, Option.some_bind]
      rw [isSome_bind_of_forall _ _ (fun p => by simp)]
      rw [ih]
      simp only [List.length_cons]
      omega

theorem readRows_isSome (k : Nat) :
    ∀ l : List Nat, (Hime.readRows k l).isSome ↔ 6 * k ≤ l.length := by
  induction k with
  | zero => intro l; simp [Hime.readRows]
  | succ k ih =>
    intro l
    simp only [Hime.readRows]
    cases hs : Hime.readSlots 3 l with
    | none =>
      have hns : ¬ 2 * 3 ≤ l.length := by
        rw [← readSlots_isSome 3 l, hs]
        simp
      simp only [Option.bind_eq_bind, Option.none_bind, Option.isSome_none]
      constructor
      · intro h; simp at h
      · intro h; omega
    | some p =>
      obtain ⟨row, l1⟩ := p
      obtain ⟨hl1, hle⟩ := readSlots_some 3 l row l1 hs
      simp only [Option.bind_eq_bind, Option.some_bind]
      rw [isSome_bind_of_forall _ _ (fun p => by simp)]
      rw [ih, hl1]
      simp only [List.length_drop]
      omega

theorem phoLoad_isSome (bs : List Nat) :
    (Hime.phoLoad bs).isSome ↔ Hime.phoCoreDemand bs ≤ bs.length := by
  simp only [Hime.phoLoad, unpack?_eq, isSome_step]
  simp only [isSome_bind, Option.isSome_some, and_true]
  unfold Hime.phoCoreDemand
  constructor
  · rintro ⟨h1, h2, h3, h4, pi, hpi, pc, hpc⟩
    obtain ⟨pidx, pl5⟩ := pi
    obtain ⟨pch, pl6⟩ := pc
    obtain ⟨hilen, hl5, hile⟩ := readIdxs_some _ _ _ _ hpi
    have hcle : 8 * Hime.leNat (((bs.drop 2).drop 2).take 4) ≤ pl5.length :=
      (readChs_some _ _ _ _ hpc).2.2
    rw [hl5] at hcle
    norm_num [List.drop_drop, List.length_drop] at h2 h3 h4 hile hcle ⊢
    omega
  · intro hle
    have h1 : 2 ≤ bs.length := by omega
    have h2 : 2 ≤ (bs.drop 2).length := by
      simp only [List.length_drop]; omega
    have h3 : 4 ≤ ((bs.drop 2).drop 2).length := by
      simp only [List.drop_drop, List.length_drop]; omega
    have h4 : 4 ≤ (((bs.drop 2).drop 2).drop 4).length := by
      simp only [List.drop_drop, List.length_drop]; omega
    refine ⟨h1, h2, h3, h4, ?_⟩
    have hidx : (Hime.readIdxs (Hime.leNat ((bs.drop 2).take 2))
        ((((bs.drop 2).drop 2).drop 4).drop 4)).isSome = true := by
      rw [readIdxs_isSome]
      norm_num [List.drop_drop, List.length_drop]
      omega
    obtain ⟨pi, hpi⟩ := Option.isSome_iff_exists.mp hidx
    obtain ⟨pidx, pl5⟩ := pi
    obtain ⟨hilen, hl5, -⟩ := readIdxs_some _ _ _ _ hpi
    have hch : (Hime.readChs (Hime.leNat (((bs.drop 2).drop 2).take 4)) pl5).isSome = true := by
      rw [readChs_isSome, hl5]
      norm_num [List.drop_drop, List.length_drop]
      omega
    obtain ⟨pc, hpc⟩ := Option.isSome_iff_exists.mp hch
    exact ⟨(pidx, pl5), hpi, pc, hpc⟩

theorem kbmLoad_isSome (bs : List Nat) :
    (Hime.kbmLoad bs).isSome ↔ 769 ≤ bs.length := by
  simp only [Hime.kbmLoad, unpack?_eq, isSome_step]
  simp only [isSome_bind, Option.isSome_some, and_true]
  constructor
  · rintro ⟨h1, p, hp⟩
    have := (readRows_isSome 128 (bs.drop 1)).mp (by rw [hp]; simp)
    simp only [List.length_drop] at this
    omega
  · intro hle
    refine ⟨by omega, ?_⟩
    have hrows : (Hime.readRows 128 (bs.drop 1)).isSome = true := by
      rw [readRows_isSome]
      simp only [List.length_drop]
      omega
    obtain ⟨p, hp⟩ := Option.isSome_iff_exists.mp hrows
    exact ⟨p, hp⟩

/-- C5 (amended): loading a phonetic table or keyboard mapping never
reads past end of file, and it raises an error that is surfaced to the
caller (modelled by `none`; the error carries no byte offset) exactly
when the file is shorter than the header plus index and character
arrays (for a table) or than the 769 fixed bytes (for a mapping)
demand; a shortfall confined to the trailing phrase area is accepted
silently with a short phrase blob. -/
theorem load_truncation_characterization :
    ∀ bs : List Nat,
      ((Hime.phoLoad bs).isSome ↔ Hime.phoCoreDemand bs ≤ bs.length) ∧
      ((Hime.kbmLoad bs).isSome ↔ 769 ≤ bs.length) :=
  fun bs => ⟨phoLoad_isSome bs, kbmLoad_isSome bs⟩

/-- C5 counterexample: `truncatedPhraseFile` is shorter than its
structure demands (its header announces a 5-byte phrase area the file
lacks), yet loading succeeds instead of reporting a truncation error. -/
theorem load_truncated_phrase_accepted :
    (Hime.phoLoad Hime.truncatedPhraseFile).isSome = true ∧
    Hime.truncatedPhraseFile.length <
      Hime.phoFullDemand Hime.truncatedPhraseFile := by
  refine ⟨by decide, by decide⟩

/-- C6: loading a phonetic table reads the 16-bit index count twice and
uses the second value: the result never depends on the first two bytes,
the loaded `idxnum_pho` is the `u16` at offset 2, and it governs the
number of index entries read (the in-memory index additionally carries
the appended sentinel). -/
theorem idxnum_second_read (x y a b : Nat) (rest bs : List Nat)
    (t : Hime.PhoneticTable) (hload : Hime.phoLoad bs = some t) :
    Hime.phoLoad (x :: y :: rest) = Hime.phoLoad (a :: b :: rest) ∧
    t.idxnum_pho = Hime.leNat ((bs.drop 2).take 2) ∧
    t.idx_pho.length = t.idxnum_pho + 1 := by
  refine ⟨rfl, ?_⟩
  simp only [Hime.phoLoad, Option.bind_eq_bind, Option.bind_eq_some] at hload
  obtain ⟨⟨n1, l1⟩, h1, hload⟩ := hload
  obtain ⟨⟨idxnum, l2⟩, h2, hload⟩ := hload
  obtain ⟨⟨chN, l3⟩, h3, hload⟩ := hload
  obtain ⟨⟨phraseSz, l4⟩, h4, hload⟩ := hload
  obtain ⟨⟨idxs, l5⟩, h5, hload⟩ := hload
  obtain ⟨⟨chs, l6⟩, h6, hload⟩ := hload
  simp only [Option.some.injEq] at hload
  obtain ⟨hv2, hl2, -⟩ := unpack?_some h2
  obtain ⟨-, hl1, -⟩ := unpack?_some h1
  have hlen : idxs.length = idxnum := (readIdxs_some _ _ _ _ h5).1
  subst hload
  refine ⟨?_, ?_⟩
  · rw [hv2, hl1]
  · simp [List.length_append, hlen]

/-- Witness for C6 on the concrete empty-table file. -/
theorem idxnum_second_read_witness :
    Hime.phoLoad Hime.emptyPhoFile = some Hime.emptyPhoTable ∧
    Hime.emptyPhoTable.idxnum_pho =
      Hime.leNat ((Hime.emptyPhoFile.drop 2).take 2) ∧
    Hime.emptyPhoTable.idx_pho.length = Hime.emptyPhoTable.idxnum_pho + 1 :=
  ⟨by decide,
   (idxnum_second_read 0 0 0 0 [] Hime.emptyPhoFile Hime.emptyPhoTable (by decide)).2⟩

theorem chain_insertDesc (x : List Nat × Nat) :
    ∀ m : List (List Nat × Nat),
      List.Chain' (fun u v => v.2 ≤ u.2) m →
      List.Chain' (fun u v => v.2 ≤ u.2) (Hime.insertDesc x m) := by
  intro m
  induction m with
  | nil => intro _; simp [Hime.insertDesc]
  | cons y ys ih =>
    intro h
    simp only [Hime.insertDesc]
    split
    · rename_i hxy
      rw [List.chain'_cons']
      refine ⟨?_, ih h.tail⟩
      intro z hz
      cases ys with
      | nil =>
        simp [Hime.insertDesc] at hz
        subst hz
        omega
      | cons w ws =>
        simp only [Hime.insertDesc] at hz
        split at hz
        · simp at hz
          subst hz
          exact (List.chain'_cons.mp h).1
        · simp at hz
          subst hz
          omega
    · rename_i hxy
      rw [List.chain'_cons]
      exact ⟨by omega, h⟩

theorem sortDesc_chain :
    ∀ l, List.Chain' (fun u v => v.2 ≤ u.2) (Hime.sortDesc l) := by
  intro l
  induction l with
  | nil => simp [Hime.sortDesc]
  | cons x xs ih =>
    simp only [Hime.sortDesc]
    exact chain_insertDesc x _ ih

theorem filter_insertDesc (x : List Nat × Nat) (c : Nat) :
    ∀ m : List (List Nat × Nat),
      (Hime.insertDesc x m).filter (fun u => u.2 == c) =
        if x.2 = c then x :: m.filter (fun u => u.2 == c)
        else m.filter (fun u => u.2 == c) := by
  intro m
  induction m with
  | nil =>
    by_cases hx : x.2 = c
    · simp [Hime.insertDesc, List.filter_cons, hx]
    · simp [Hime.insertDesc, List.filter_cons, hx]
  | cons y ys ih =>
    simp only [Hime.insertDesc]
    split
    · rename_i hxy
      by_cases hx : x.2 = c
      · have hy : (y.2 == c) = false := by
          simp only [beq_eq_false_iff_ne, ne_eq]
          omega
        simp only [List.filter_cons, hy, ih, if_pos hx]
        simp
      · have := ih
        simp only [List.filter_cons, ih, if_neg hx]
    · by_cases hx : x.2 = c
      · simp [List.filter_cons, hx]
      · simp [List.filter_cons, hx]
  
theorem sortDesc_filter (c : Nat) :
    ∀ l, (Hime.sortDesc l).filter (fun u => u.2 == c) =
      l.filter (fun u => u.2 == c) := by
  intro l
  induction l with
  | nil => rfl
  | cons x xs ih =>
    simp only [Hime.sortDesc]
    rw [filter_insertDesc, ih]
    by_cases hx : x.2 = c
    · rw [if_pos hx, List.filter_cons]
      simp [hx]
    · rw [if_neg hx, List.filter_cons]
      simp [hx]

theorem perm_insertDesc (x : List Nat × Nat) :
    ∀ m, List.Perm (Hime.insertDesc x m) (x :: m) := by
  intro m
  induction m with
  | nil => exact List.Perm.refl _
  | cons y ys ih =>
    simp only [Hime.insertDesc]
    split
    · exact (ih.cons y).trans (List.Perm.swap x y ys)
    · exact List.Perm.refl _

theorem sortDesc_perm : ∀ l, List.Perm (Hime.sortDesc l) l := by
  intro l
  induction l with
  | nil => exact List.Perm.refl _
  | cons x xs ih =>
    simp only [Hime.sortDesc]
    exact (perm_insertDesc x _).trans (ih.cons x)

theorem lookupScan_spec :
    ∀ (i : Nat) (l : List Hime.PhoIdx) (k : Nat),
      i + 1 < l.length →
      (l.getD i ⟨0, 0⟩).key = k →
      (∀ j, j < i → (l.getD j ⟨0, 0⟩).key < k) →
      Hime.lookupScan l k =
        some ((l.getD i ⟨0, 0⟩).start, (l.getD (i + 1) ⟨0, 0⟩).start) := by
  intro i
  induction i with
  | zero =>
    intro l k hlen hkey _
    match l with
    | [] => simp at hlen
    | [a] => simp at hlen
    | a :: b :: rest =>
      simp only [List.getD_cons_zero] at hkey
      simp only [Hime.lookupScan, List.getD_cons_zero, List.getD_cons_succ]
      rw [if_pos hkey]
  | succ i ih =>
    intro l k hlen hkey hbef
    match l with
    | [] => simp at hlen
    | [a] => simp at hlen
    | a :: b :: rest =>
      have ha : a.key < k := by
        have := hbef 0 (by omega)
        simpa using this
      simp only [Hime.lookupScan]
      rw [if_neg (by omega), if_neg (by omega)]
      have hrec := ih (b :: rest) k
        (by simp only [List.length_cons] at hlen ⊢; omega)
        (by simpa using hkey)
        (fun j hj => by
          have := hbef (j + 1) (by omega)
          simpa using this)
      simpa using hrec

theorem gather_spec (t : Hime.PhoneticTable) (chs : Nat → List Nat) :
    ∀ (n start : Nat),
      (∀ j, start ≤ j → j < start + n →
        t.get_char j = some (chs j) ∧ chs j ≠ []) →
      Hime.gather t start n =
        some ((List.range' start n).map
          (fun j => (chs j, (t.ch_pho.getD j ⟨[], 0⟩).count))) := by
  intro n
  induction n with
  | zero => intro start _; simp [Hime.gather]
  | succ n ih =>
    intro start hget
    obtain ⟨hc, hne⟩ := hget start (le_refl _) (by omega)
    simp only [Hime.gather, Option.bind_eq_bind]
    rw [hc]
    simp only [Option.some_bind]
    rw [ih (start + 1) (fun j hj1 hj2 => hget j (by omega) (by omega))]
    simp only [Option.some_bind]
    rw [if_pos hne, List.range'_succ]
    simp

/-- C3: for a loaded table whose index entry `i` matches the packed key
(entries before it having smaller keys, per the sorted-index format) and
whose character range `[start, next)` yields non-empty texts, `lookup`
returns exactly the texts of the entries in `[start, next)` ordered by
usage count descending with ties in original table order: the result is
the projection of a stable descending sort of the range's
`(text, count)` pairs — sorted (`Chain'`), a permutation of the range
(`Perm`), with every equal-count class kept in table order (`filter`).
Determinism follows as `lookup` is a pure function of the table and key. -/
theorem lookup_ranked_stable (t : Hime.PhoneticTable)
    (phokey i start next : Nat) (chs : Nat → List Nat)
    (entries : List (List Nat × Nat))
    (hi : i + 1 < t.idx_pho.length)
    (hkey : (t.idx_pho.getD i ⟨0, 0⟩).key = phokey)
    (hbefore : ∀ j, j < i → (t.idx_pho.getD j ⟨0, 0⟩).key < phokey)
    (hstart : start = (t.idx_pho.getD i ⟨0, 0⟩).start)
    (hnext : next = (t.idx_pho.getD (i + 1) ⟨0, 0⟩).start)
    (hle : start ≤ next)
    (hget : ∀ j, start ≤ j → j < next →
      t.get_char j = some (chs j) ∧ chs j ≠ [])
    (hentries : entries = (List.range' start (next - start)).map
        (fun j => (chs j, (t.ch_pho.getD j ⟨[], 0⟩).count))) :
    t.lookup phokey = some ((Hime.sortDesc entries).map (fun u => u.1)) ∧
    List.Chain' (fun u v => v.2 ≤ u.2) (Hime.sortDesc entries) ∧
    (∀ c, (Hime.sortDesc entries).filter (fun u => u.2 == c) =
      entries.filter (fun u => u.2 == c)) ∧
    List.Perm (Hime.sortDesc entries) entries := by
  refine ⟨?_, sortDesc_chain entries, fun c => sortDesc_filter c entries,
    sortDesc_perm entries⟩
  unfold Hime.PhoneticTable.lookup
  rw [lookupScan_spec i t.idx_pho phokey hi hkey hbefore, ← hstart, ← hnext]
  show (Hime.gather t start (next - start)).map
      (fun rs => (Hime.sortDesc rs).map (fun u => u.1)) = _
  rw [gather_spec t chs (next - start) start
    (fun j h1 h2 => hget j h1 (by omega)), ← hentries]
  rfl

/-- Witness for C3 on the concrete two-entry table. -/
theorem lookup_ranked_stable_witness :
    Hime.PhoneticTable.lookup Hime.demoTable 2 =
      some ((Hime.sortDesc Hime.demoEntries).map (fun u => u.1)) :=
  (lookup_ranked_stable Hime.demoTable 2 0 0 2 Hime.demoChs Hime.demoEntries
    (by decide) (by decide) (fun j hj => absurd hj (Nat.not_lt_zero j))
    (by decide) (by decide) (by decide)
    (fun j h1 h2 => by
      interval_cases j
      · exact ⟨rfl, by decide⟩
      · exact ⟨rfl, by decide⟩)
    (by decide)).1

/-- C8: backspace (`0x08`) on a buffer with at least one filled slot
clears exactly the highest-filled slot (scanning from tone toward
initial), discards the pending candidate set, resets the page, and is
handled; backspace on an empty buffer returns `handled = false` and
leaves the state unchanged. -/
theorem backspace_behavior (s : Hime.EngState) (hLen : s.typ_pho.length = 4) :
    (Hime.is_empty s = true →
      Hime.process_key s 8 = some (s, false, [], false)) ∧
    (Hime.is_empty s = false →
      ∃ i, i < 4 ∧ s.typ_pho.getD i 0 ≠ 0 ∧
        (∀ j, i < j → j < 4 → s.typ_pho.getD j 0 = 0) ∧
        Hime.process_key s 8 =
          some ({ s with typ_pho := s.typ_pho.set i 0, inph := s.inph.set i 0,
                         candidates := [], candidate_page := 0 },
            true, [], false)) := by
  have hpk : Hime.process_key s 8 =
      if Hime.is_empty s then some (s, false, [], false)
      else some (Hime.deleteLast s, true, [], false) := by
    simp only [Hime.process_key]
    rw [if_neg (fun h => absurd h.2.1 (by decide)), if_neg (by decide)]
    simp
  constructor
  · intro he
    rw [hpk, if_pos he]
  · intro he
    rcases s with ⟨tb, tp, ip, cds, pg⟩
    obtain ⟨a, b, c, d, htp⟩ : ∃ a b c d, tp = [a, b, c, d] := by
      match tp, hLen with
      | [a, b, c, d], _ => exact ⟨a, b, c, d, rfl⟩
    subst htp
    by_cases hd : d = 0
    · subst hd
      by_cases hc : c = 0
      · subst hc
        by_cases hb : b = 0
        · subst hb
          by_cases ha : a = 0
          · subst ha
            simp [Hime.is_empty] at he
          · refine ⟨0, by omega, by simpa using ha, fun j h1 h2 => by
              interval_cases j <;> simp, ?_⟩
            rw [hpk, if_neg (by simp [he])]
            simp [Hime.deleteLast, List.getD_cons_zero, List.getD_cons_succ, ha]
        · refine ⟨1, by omega, by simpa using hb, fun j h1 h2 => by
            interval_cases j <;> simp, ?_⟩
          rw [hpk, if_neg (by simp [he])]
          simp [Hime.deleteLast, List.getD_cons_zero, List.getD_cons_succ, hb]
      · refine ⟨2, by omega, by simpa using hc, fun j h1 h2 => by
          have hj : j = 3 := by omega
          subst hj
          simp, ?_⟩
        rw [hpk, if_neg (by simp [he])]
        simp [Hime.deleteLast, List.getD_cons_zero, List.getD_cons_succ, hc]
    · refine ⟨3, by omega, by simpa using hd, fun j h1 h2 => absurd h2 (by omega), ?_⟩
      rw [hpk, if_neg (by simp [he])]
      simp [Hime.deleteLast, List.getD_cons_zero, List.getD_cons_succ, hd]

/-- Witness for C8: backspace on the buffer `[1, 0, 0, 0]` clears the
initial slot. -/
theorem backspace_behavior_witness :
    ∃ i, i < 4 ∧ Hime.backspaceDemoState.typ_pho.getD i 0 ≠ 0 ∧
      (∀ j, i < j → j < 4 → Hime.backspaceDemoState.typ_pho.getD j 0 = 0) ∧
      Hime.process_key Hime.backspaceDemoState 8 =
        some ({ Hime.backspaceDemoState with
                  typ_pho := Hime.backspaceDemoState.typ_pho.set i 0,
                  inph := Hime.backspaceDemoState.inph.set i 0,
                  candidates := [], candidate_page := 0 },
          true, [], false) :=
  (backspace_behavior Hime.backspaceDemoState rfl).2 (by decide)

theorem insertPhonetic_pho_table (s : Hime.EngState) (num typ key : Nat) :
    (Hime.insertPhonetic s num typ key).pho_table = s.pho_table := by
  simp only [Hime.insertPhonetic, ite_self]

theorem insertPhonetic_candidates (s : Hime.EngState) (num typ key : Nat) :
    (Hime.insertPhonetic s num typ key).candidates = s.candidates := by
  simp only [Hime.insertPhonetic, ite_self]

theorem insertPhonetic_candidate_page (s : Hime.EngState) (num typ key : Nat) :
    (Hime.insertPhonetic s num typ key).candidate_page = s.candidate_page := by
  simp only [Hime.insertPhonetic, ite_self]

theorem insertPhonetic_typ_pho (s : Hime.EngState) (num typ key : Nat) :
    (Hime.insertPhonetic s num typ key).typ_pho = s.typ_pho.set typ num := by
  simp only [Hime.insertPhonetic, ite_self]

theorem all_zero_false_of_getD {l : List Nat} (h : l.getD 3 0 ≠ 0) :
    l.all (· == 0) = false := by
  have hlt : 3 < l.length := by
    by_contra hc
    push_neg at hc
    rw [List.getD_eq_default _ _ (by omega)] at h
    exact h rfl
  cases hall : l.all (fun x => x == 0) with
  | false => rfl
  | true =>
    exfalso
    have hmem : l.getD 3 0 ∈ l := by
      rw [List.getD_eq_getElem _ _ hlt]
      exact List.getElem_mem hlt
    have hx := List.all_eq_true.mp hall _ hmem
    simp only [beq_iff_eq] at hx
    exact h hx

/-- C4: when a phonetic key triggers a lookup (the tone slot became
non-zero, or the key was space), the outcome depends on the candidate
count: zero candidates leaves the (post-insertion) buffer unchanged and
returns handled with no commit and no candidates shown; exactly one
candidate commits it and resets the buffer to empty without showing
candidates; more than one keeps the composition and shows the first page
(page 0) of candidates. -/
theorem process_key_lookup_outcomes (s : Hime.EngState) (t : Hime.PhoneticTable)
    (keyChar num typ : Nat) (cs : List (List Nat))
    (hTable : s.pho_table = some t)
    (hLen : s.typ_pho.length = 4)
    (hNoSel : s.candidates = [])
    (hMap : Hime.zhuyinMap (Hime.asciiLower keyChar) = [(num, typ)])
    (hTrig : (Hime.insertPhonetic s num typ
        (Hime.asciiLower keyChar)).typ_pho.getD 3 0 ≠ 0 ∨
      Hime.asciiLower keyChar = 32)
    (hLook : t.lookup (Hime.pho2key (Hime.insertPhonetic s num typ
        (Hime.asciiLower keyChar)).typ_pho) = some cs) :
    (cs = [] → Hime.process_key s keyChar =
      some ({ Hime.insertPhonetic s num typ (Hime.asciiLower keyChar) with
                candidates := [], candidate_page := 0 }, true, [], false)) ∧
    (cs.length = 1 → Hime.process_key s keyChar =
      some ({ s with typ_pho := [0, 0, 0, 0], inph := [0, 0, 0, 0],
                     candidates := [], candidate_page := 0 },
        true, cs.getD 0 [], false)) ∧
    (1 < cs.length → Hime.process_key s keyChar =
      some ({ Hime.insertPhonetic s num typ (Hime.asciiLower keyChar) with
                candidates := cs, candidate_page := 0 }, true, [], true)) := by
  have htone : (Hime.insertPhonetic s num typ
      (Hime.asciiLower keyChar)).typ_pho.getD 3 0 ≠ 0 := by
    rcases hTrig with h | h
    · exact h
    · rw [h] at hMap ⊢
      have hnt : num = 1 ∧ typ = 3 := by
        have := hMap
        simp only [Hime.zhuyinMap, List.cons.injEq, Prod.mk.injEq, and_true] at this
        exact ⟨this.1.symm, this.2.symm⟩
      obtain ⟨hn, ht⟩ := hnt
      subst hn; subst ht
      rw [insertPhonetic_typ_pho]
      have hlt : 3 < (s.typ_pho.set 3 1).length := by
        rw [List.length_set, hLen]
        omega
      rw [List.getD_eq_getElem _ _ hlt, List.getElem_set_self hlt]
      omega
  have hmain : Hime.process_key s keyChar =
      match Hime.lookupCandidates
        (Hime.insertPhonetic s num typ (Hime.asciiLower keyChar)) with
      | none => none
      | some s2 =>
        if s2.candidates.length = 1 then
          some (Hime.reset s2, true, s2.candidates.getD 0 [], false)
        else if 0 < s2.candidates.length then some (s2, true, [], true)
        else some (s2, true, [], false) := by
    simp only [Hime.process_key]
    rw [if_neg (fun h => h.1 hNoSel), hMap,
      if_pos (by simp : ([(num, typ)] : List (Nat × Nat)) ≠ [])]
    simp only [List.foldl_cons, List.foldl_nil]
    rw [if_pos hTrig]
  have hlc : Hime.lookupCandidates
      (Hime.insertPhonetic s num typ (Hime.asciiLower keyChar)) =
      some { Hime.insertPhonetic s num typ (Hime.asciiLower keyChar) with
               candidates := cs, candidate_page := 0 } := by
    unfold Hime.lookupCandidates
    have hfalse : Hime.is_empty
        { Hime.insertPhonetic s num typ (Hime.asciiLower keyChar) with
            candidates := [], candidate_page := 0 } = false :=
      all_zero_false_of_getD htone
    rw [if_neg (by simp [hfalse])]
    simp only [insertPhonetic_pho_table, hTable, hLook, Option.map_some']
  refine ⟨?_, ?_, ?_⟩
  · intro h0
    rw [hmain, hlc]
    subst h0
    simp
  · intro h1
    rw [hmain, hlc]
    show (if cs.length = 1 then
        some (Hime.reset { Hime.insertPhonetic s num typ (Hime.asciiLower keyChar) with
                             candidates := cs, candidate_page := 0 }, true,
          cs.getD 0 [], false)
      else if 0 < cs.length then
        some ({ Hime.insertPhonetic s num typ (Hime.asciiLower keyChar) with
                  candidates := cs, candidate_page := 0 }, true, [], true)
      else
        some ({ Hime.insertPhonetic s num typ (Hime.asciiLower keyChar) with
                  candidates := cs, candidate_page := 0 }, true, [], false)) = _
    rw [if_pos h1]
    simp [Hime.reset, insertPhonetic_pho_table]
  · intro h2
    rw [hmain, hlc]
    show (if cs.length = 1 then
        some (Hime.reset { Hime.insertPhonetic s num typ (Hime.asciiLower keyChar) with
                             candidates := cs, candidate_page := 0 }, true,
          cs.getD 0 [], false)
      else if 0 < cs.length then
        some ({ Hime.insertPhonetic s num typ (Hime.asciiLower keyChar) with
                  candidates := cs, candidate_page := 0 }, true, [], true)
      else
        some ({ Hime.insertPhonetic s num typ (Hime.asciiLower keyChar) with
                  candidates := cs, candidate_page := 0 }, true, [], false)) = _
    rw [if_neg (by omega), if_pos (by omega)]

/-- Witness for C4: pressing `'3'` (second tone) on a fresh engine over
the two-entry demo table triggers a lookup with two candidates, keeping
the composition and showing page 0. -/
theorem process_key_lookup_outcomes_witness :
    Hime.process_key (Hime.initState (some Hime.demoTable)) 51 =
      some ({ Hime.insertPhonetic (Hime.initState (some Hime.demoTable)) 2 3
                (Hime.asciiLower 51) with
                candidates := [[100], [101]], candidate_page := 0 },
        true, [], true) :=
  (process_key_lookup_outcomes (Hime.initState (some Hime.demoTable))
    Hime.demoTable 51 2 3 [[100], [101]] rfl rfl rfl (by decide)
    (Or.inl (by decide)) (by decide)).2.2 (by decide)

theorem inv_init (t : Option Hime.PhoneticTable) : Hime.Inv (Hime.initState t) :=
  ⟨fun _ => rfl, fun h => absurd rfl h⟩

theorem inv_reset (s : Hime.EngState) : Hime.Inv (Hime.reset s) :=
  ⟨fun _ => rfl, fun h => absurd rfl h⟩

theorem inv_deleteLast (s : Hime.EngState) : Hime.Inv (Hime.deleteLast s) :=
  ⟨fun _ => rfl, fun h => absurd rfl h⟩

theorem inv_insertPhonetic (s : Hime.EngState) (num typ key : Nat)
    (h : Hime.Inv s) : Hime.Inv (Hime.insertPhonetic s num typ key) := by
  constructor
  · intro he
    rw [insertPhonetic_candidates] at he
    rw [insertPhonetic_candidate_page]
    exact h.1 he
  · intro hne
    rw [insertPhonetic_candidates] at hne ⊢
    rw [insertPhonetic_candidate_page]
    exact h.2 hne

theorem inv_foldl_insert (key : Nat) (ps : List (Nat × Nat)) :
    ∀ s : Hime.EngState, Hime.Inv s →
      Hime.Inv (ps.foldl (fun st p => Hime.insertPhonetic st p.1 p.2 key) s) := by
  induction ps with
  | nil => intro s h; exact h
  | cons p ps ih =>
    intro s h
    rw [List.foldl_cons]
    exact ih _ (inv_insertPhonetic s p.1 p.2 key h)

theorem inv_lookupCandidates (s s2 : Hime.EngState)
    (h : Hime.lookupCandidates s = some s2) : Hime.Inv s2 := by
  simp only [Hime.lookupCandidates] at h
  split at h
  · simp only [Option.some.injEq] at h
    subst h
    exact ⟨fun _ => rfl, fun hh => absurd rfl hh⟩
  · split at h
    · simp only [Option.some.injEq] at h
      subst h
      exact ⟨fun _ => rfl, fun hh => absurd rfl hh⟩
    · rename_i t _
      cases hl : Hime.PhoneticTable.lookup t (Hime.pho2key
          ({ s with candidates := [], candidate_page := 0 }).typ_pho) with
      | none => rw [hl] at h; simp at h
      | some cs =>
        rw [hl] at h
        simp only [Option.map_some', Option.some.injEq] at h
        subst h
        constructor
        · intro _; rfl
        · intro hne
          simp only [Nat.zero_mul]
          exact List.length_pos.mpr hne

theorem inv_page_up (s : Hime.EngState) (h : Hime.Inv s) :
    Hime.Inv (Hime.page_up s).1 := by
  unfold Hime.page_up
  split
  · rename_i hp
    constructor
    · intro he
      exact absurd (h.1 he) (by omega)
    · intro hne
      have h2 := h.2 hne
      show (s.candidate_page - 1) * Hime.candidates_per_page < s.candidates.length
      simp only [show Hime.candidates_per_page = 10 from rfl] at h2 ⊢
      omega
  · exact h

theorem inv_page_down (s : Hime.EngState) (h : Hime.Inv s) :
    Hime.Inv (Hime.page_down s).1 := by
  simp only [Hime.page_down]
  split
  · rename_i hp
    simp only [show (Hime.candidates_per_page : Int) = 10 from rfl] at hp
    rcases Nat.eq_zero_or_pos s.candidates.length with hl | hl
    · exfalso
      rw [hl] at hp
      have hfd : Int.fdiv ((0 : Int) - 1) 10 = -1 := by decide
      rw [show ((0 : Nat) : Int) = (0 : Int) from rfl, hfd] at hp
      omega
    · have h1 : ((s.candidates.length : Int) - 1) =
          ((s.candidates.length - 1 : Nat) : Int) := by omega
      rw [h1] at hp
      have hfd : ∀ m : Nat, Int.fdiv (m : Int) 10 = ((m / 10 : Nat) : Int) := by
        intro m
        cases m with
        | zero => rfl
        | succ m => rfl
      rw [hfd] at hp
      have hp' : s.candidate_page < (s.candidates.length - 1) / 10 := by
        exact_mod_cast hp
      constructor
      · intro he
        rw [he] at hl
        simp at hl
      · intro hne
        show (s.candidate_page + 1) * Hime.candidates_per_page < s.candidates.length
        simp only [show Hime.candidates_per_page = 10 from rfl]
        have hdm := Nat.div_mul_le_self (s.candidates.length - 1) 10
        omega
  · exact h

theorem inv_select (s : Hime.EngState) (i : Nat) (h : Hime.Inv s) :
    Hime.Inv (Hime.select_candidate s i).1 := by
  simp only [Hime.select_candidate]
  split
  · exact inv_reset s
  · exact h

theorem inv_process_key (s : Hime.EngState) (k : Nat) (s' : Hime.EngState)
    (hd : Bool) (c : List Nat) (sc : Bool) (hInv : Hime.Inv s)
    (hpk : Hime.process_key s k = some (s', hd, c, sc)) : Hime.Inv s' := by
  simp only [Hime.process_key] at hpk
  split at hpk
  · simp only [Option.some.injEq, Prod.mk.injEq] at hpk
    obtain ⟨rfl, -⟩ := hpk
    exact inv_reset s
  · split at hpk
    · split at hpk
      · split at hpk
        · simp at hpk
        · rename_i s2 heq
          split at hpk
          · simp only [Option.some.injEq, Prod.mk.injEq] at hpk
            obtain ⟨rfl, -⟩ := hpk
            exact inv_reset s2
          · split at hpk
            · simp only [Option.some.injEq, Prod.mk.injEq] at hpk
              obtain ⟨rfl, -⟩ := hpk
              exact inv_lookupCandidates _ _ heq
            · simp only [Option.some.injEq, Prod.mk.injEq] at hpk
              obtain ⟨rfl, -⟩ := hpk
              exact inv_lookupCandidates _ _ heq
      · simp only [Option.some.injEq, Prod.mk.injEq] at hpk
        obtain ⟨rfl, -⟩ := hpk
        exact inv_foldl_insert _ _ s hInv
    · split at hpk
      · simp only [Option.some.injEq, Prod.mk.injEq] at hpk
        obtain ⟨rfl, -⟩ := hpk
        exact inv_reset s
      · split at hpk
        · split at hpk
          · simp only [Option.some.injEq, Prod.mk.injEq] at hpk
            obtain ⟨rfl, -⟩ := hpk
            exact hInv
          · simp only [Option.some.injEq, Prod.mk.injEq] at hpk
            obtain ⟨rfl, -⟩ := hpk
            exact inv_deleteLast s
        · simp only [Option.some.injEq, Prod.mk.injEq] at hpk
          obtain ⟨rfl, -⟩ := hpk
          exact hInv

theorem get_candidates_ne_nil (s : Hime.EngState) (h : Hime.Inv s)
    (hne : s.candidates ≠ []) : Hime.get_candidates s ≠ [] := by
  unfold Hime.get_candidates
  rw [if_neg hne]
  have h2 := h.2 hne
  intro hcon
  have hlen := congrArg List.length hcon
  simp only [List.length_take, List.length_drop, List.length_nil] at hlen
  simp only [show Hime.candidates_per_page = 10 from rfl] at h2 hlen
  omega

/-- C10: in every engine state reachable from a fresh engine by
`process_key`, `select_candidate`, `page_up`, `page_down` and `reset`,
the candidate page is 0 whenever the candidate list is empty, and
otherwise `candidate_page * candidates_per_page < len(candidates)`, so
the current page returned by `get_candidates` is never empty while
candidates exist. -/
theorem candidate_page_invariant (s : Hime.EngState) (h : Hime.Reach s) :
    Hime.Inv s ∧ (s.candidates ≠ [] → Hime.get_candidates s ≠ []) := by
  have hInv : Hime.Inv s := by
    induction h with
    | init t => exact inv_init t
    | key hr hpk ih => exact inv_process_key _ _ _ _ _ _ ih hpk
    | sel i hr ih => exact inv_select _ i ih
    | pup hr ih => exact inv_page_up _ ih
    | pdown hr ih => exact inv_page_down _ ih
    | rst hr ih => exact inv_reset _
  exact ⟨hInv, fun hne => get_candidates_ne_nil s hInv hne⟩

/-- Witness for C10 at the freshly constructed engine. -/
theorem candidate_page_invariant_witness :
    Hime.Inv (Hime.initState none) ∧
    ((Hime.initState none).candidates ≠ [] →
      Hime.get_candidates (Hime.initState none) ≠ []) :=
  candidate_page_invariant (Hime.initState none) (Hime.Reach.init none)
